import Mathlib

/-!
Verification of the BFBC (Bytes Frequency-Based Chunking) boundary detector
from `src/bfbc.rs`.

The Rust code is shallowly embedded as follows:
* `u8` values are `Nat` (with hypotheses `< 256` where relevant),
* `u16` values are `Nat` with wrap-around written explicitly as `% 65536`,
* `usize` values are `Nat`,
* the stack array `[u8; 8192]` holding the frequent-pair bitmap is a total
  function `Nat → Nat` from cell index to cell (byte) value,
* the construction-time `assert!(min_chunk_size >= 2)` is modelled by `new`
  returning `Option`: `none` models the assertion failure (panic),
* `find_boundary(&mut self, data)` is modelled as a pure function returning
  the reported boundary together with the updated detector.
-/

/-- Streaming state of the detector: `pos` is the count of bytes ingested
since the last reset, `window` the rolling two-byte window (a `u16`). -/
structure BFBCChunkerState where
  pos : Nat
  window : Nat
deriving Repr, DecidableEq

/-- Mirrors `BFBCChunkerState::reset`: zeroes `pos` and `window`. -/
def BFBCChunkerState.reset (_s : BFBCChunkerState) : BFBCChunkerState :=
  { pos := 0, window := 0 }

/-- Mirrors `BFBCChunkerState::ingest`: `pos += 1; window = window << 8 | b`,
with the `u16` shift wrapping modulo `2^16 = 65536`. -/
def BFBCChunkerState.ingest (s : BFBCChunkerState) (b : Nat) : BFBCChunkerState :=
  { pos := s.pos + 1, window := ((s.window <<< 8) % 65536) ||| b }

/-- The BFBC detector: the frequent-pair bitmap (the `[u8; 8192]` array, as a
function from cell index to byte value), the configured minimum chunk size,
and the streaming state. -/
structure BFBCChunker where
  frequent_byte_pairs : Nat → Nat
  min_chunk_size : Nat
  state : BFBCChunkerState

/-- Mirrors `BFBCChunker::byte_pair_to_bitfield_index`:
`(val / 8, val % 8)`. -/
def byte_pair_to_bitfield_index (val : Nat) : Nat × Nat :=
  (val / 8, val % 8)

/-- Mirrors `BFBCChunker::is_popular_pair`: tests the bit addressed by
`byte_pair_to_bitfield_index` in the bitmap. -/
def BFBCChunker.is_popular_pair (c : BFBCChunker) (val : Nat) : Bool :=
  let i := byte_pair_to_bitfield_index val
  c.frequent_byte_pairs i.1 &&& (1 <<< i.2) != 0

/-- One iteration of the bitmap-construction loop of `BFBCChunker::new`: for
the pair `(b1, b2)` compute the global index `p = (b1 << 8) | b2` and set the
addressed bit, i.e. `array[p / 8] |= 1 << (p % 8)`. -/
def setPairBit (arr : Nat → Nat) (pq : Nat × Nat) : Nat → Nat :=
  let p := (pq.1 <<< 8) ||| pq.2
  let i := byte_pair_to_bitfield_index p
  fun cell => if cell = i.1 then arr i.1 ||| (1 <<< i.2) else arr cell

/-- The bitmap-construction loop of `BFBCChunker::new`: starting from the
all-zero array, set the bit of each supplied pair in order. -/
def buildBitmap (pairs : List (Nat × Nat)) : Nat → Nat :=
  pairs.foldl setPairBit (fun _ => 0)

/-- Mirrors `BFBCChunker::new`. The Rust `assert!(min_chunk_size >= 2)` is
modelled by returning `none` (panic) when the precondition fails. -/
def BFBCChunker.new (frequent_byte_pairs : List (Nat × Nat)) (min_chunk_size : Nat) :
    Option BFBCChunker :=
  if 2 ≤ min_chunk_size then
    some
      { frequent_byte_pairs := buildBitmap frequent_byte_pairs,
        min_chunk_size := min_chunk_size,
        state := { pos := 0, window := 0 } }
  else
    none

/-- The scan loop of `find_boundary`, with `i` tracking the index of the
current byte within the original buffer. Each byte is ingested; once
`pos >= min_chunk_size`, the window is tested against the bitmap and the
loop returns at the first match. -/
def findBoundaryAux (c : BFBCChunker) (data : List Nat) (i : Nat) :
    Option Nat × BFBCChunker :=
  match data with
  | [] => (none, c)
  | b :: rest =>
    let c' : BFBCChunker := { c with state := c.state.ingest b }
    if c'.min_chunk_size ≤ c'.state.pos then
      if c'.is_popular_pair c'.state.window then
        (some i, c')
      else
        findBoundaryAux c' rest (i + 1)
    else
      findBoundaryAux c' rest (i + 1)

/-- Mirrors `ChunkerImpl::find_boundary` for `BFBCChunker`: returns the
reported boundary (if any) and the detector with its updated streaming
state. -/
def BFBCChunker.find_boundary (c : BFBCChunker) (data : List Nat) :
    Option Nat × BFBCChunker :=
  findBoundaryAux c data 0

/-- Mirrors `ChunkerImpl::reset` for `BFBCChunker`. -/
def BFBCChunker.reset (c : BFBCChunker) : BFBCChunker :=
  { c with state := c.state.reset }

/-- The streaming state after ingesting every byte of `data` in order. -/
def stateAfter (s : BFBCChunkerState) (data : List Nat) : BFBCChunkerState :=
  data.foldl BFBCChunkerState.ingest s

/-- The boundary condition of the spec at index `j` of `data`: after
ingesting bytes `0..=j`, the cumulative `pos` has reached `min_chunk_size`
and the current window is a member of the frequent-pair bitmap. -/
def hitAt (c : BFBCChunker) (data : List Nat) (j : Nat) : Prop :=
  c.min_chunk_size ≤ (stateAfter c.state (data.take (j + 1))).pos ∧
  c.is_popular_pair (stateAfter c.state (data.take (j + 1))).window = true

instance (c : BFBCChunker) (data : List Nat) (j : Nat) : Decidable (hitAt c data j) :=
  inferInstanceAs (Decidable (_ ∧ _))

/-- Fuel-indexed driver loop: repeatedly calls `find_boundary` on the
not-yet-consumed remainder of a single buffer, recording each reported
boundary as an absolute stream position (`base` is the absolute position of
the first byte of `data`). Returns the recorded boundaries, the final
detector, and the absolute position reached. The fuel only serves to make
the recursion structural; `data.length` is always enough. -/
def driveBufF : Nat → BFBCChunker → List Nat → Nat → List Nat × BFBCChunker × Nat
  | 0, c, _, base => ([], c, base)
  | fuel + 1, c, data, base =>
    match c.find_boundary data with
    | (some i, c') =>
      let r := driveBufF fuel c' (data.drop (i + 1)) (base + i + 1)
      ((base + i) :: r.1, r.2)
    | (none, c') => ([], c', base + data.length)

/-- Driver for one buffer: feed it, and after every reported boundary keep
feeding the unconsumed remainder of the buffer (without resetting). -/
def driveBuf (c : BFBCChunker) (data : List Nat) (base : Nat) :
    List Nat × BFBCChunker × Nat :=
  driveBufF data.length c data base

/-- Driver for a sequence of buffers fed sequentially, state carried across
calls: drives each buffer in turn, accumulating absolute boundary
positions. -/
def driveList (c : BFBCChunker) (bufs : List (List Nat)) (base : Nat) :
    List Nat × BFBCChunker × Nat :=
  match bufs with
  | [] => ([], c, base)
  | d :: rest =>
    let r := driveBuf c d base
    let r2 := driveList r.2.1 rest r.2.2
    (r.1 ++ r2.1, r2.2)

/-- An operation of the detector's public interface. -/
inductive ChunkerOp where
  | feed (data : List Nat)
  | reset
deriving Repr

/-- Applies one public operation to the detector. -/
def runOp (c : BFBCChunker) (op : ChunkerOp) : BFBCChunker :=
  match op with
  | ChunkerOp.feed data => (c.find_boundary data).2
  | ChunkerOp.reset => c.reset

/-- A small concrete detector used to exercise the theorems: the single
frequent pair (0x41, 0x42) with minimum chunk size 2 and fresh state. -/
def exampleChunker : BFBCChunker :=
  { frequent_byte_pairs := buildBitmap [(0x41, 0x42)], min_chunk_size := 2,
    state := { pos := 0, window := 0 } }

/-- The same detector with a dirty streaming state, as reached mid-stream. -/
def exampleChunkerDirty : BFBCChunker :=
  { frequent_byte_pairs := buildBitmap [(0x41, 0x42)], min_chunk_size := 2,
    state := { pos := 5, window := 0x4142 } }

/-! ### Basic lemmas about the scan loop -/

theorem stateAfter_nil (s : BFBCChunkerState) : stateAfter s [] = s := rfl

theorem stateAfter_cons (s : BFBCChunkerState) (b : Nat) (rest : List Nat) :
    stateAfter s (b :: rest) = stateAfter (s.ingest b) rest := rfl

theorem stateAfter_append (s : BFBCChunkerState) (xs ys : List Nat) :
    stateAfter s (xs ++ ys) = stateAfter (stateAfter s xs) ys := by
  simp [stateAfter, List.foldl_append]

theorem stateAfter_pos (s : BFBCChunkerState) (data : List Nat) :
    (stateAfter s data).pos = s.pos + data.length := by
  induction data generalizing s with
  | nil => simp [stateAfter]
  | cons b rest ih =>
    rw [stateAfter_cons, ih]
    simp [BFBCChunkerState.ingest]
    omega

theorem findBoundaryAux_cons (c : BFBCChunker) (b : Nat) (rest : List Nat) (i : Nat) :
    findBoundaryAux c (b :: rest) i =
      if c.min_chunk_size ≤ (c.state.ingest b).pos then
        if c.is_popular_pair (c.state.ingest b).window then
          (some i, { c with state := c.state.ingest b })
        else
          findBoundaryAux { c with state := c.state.ingest b } rest (i + 1)
      else
        findBoundaryAux { c with state := c.state.ingest b } rest (i + 1) :=
  rfl

theorem findBoundaryAux_shift (data : List Nat) : ∀ (c : BFBCChunker) (i0 : Nat),
    findBoundaryAux c data i0 =
      (((findBoundaryAux c data 0).1).map (fun j => i0 + j),
        (findBoundaryAux c data 0).2) := by
  induction data with
  | nil => intro c i0; simp [findBoundaryAux]
  | cons b rest ih =>
    intro c i0
    rw [findBoundaryAux_cons, findBoundaryAux_cons c b rest 0]
    by_cases h1 : c.min_chunk_size ≤ (c.state.ingest b).pos
    · by_cases h2 : c.is_popular_pair (c.state.ingest b).window = true
      · simp [h1, h2]
      · simp only [if_pos h1, if_neg h2]
        rw [ih _ (i0 + 1), ih _ 1]
        simp only [Option.map_map, Prod.mk.injEq]
        refine ⟨?_, trivial⟩
        congr 1
        funext j
        simp only [Function.comp]
        omega
    · simp only [if_neg h1]
      rw [ih _ (i0 + 1), ih _ 1]
      simp only [Option.map_map, Prod.mk.injEq]
      refine ⟨?_, trivial⟩
      congr 1
      funext j
      simp only [Function.comp]
      omega

theorem findBoundaryAux_lt (data : List Nat) : ∀ (c : BFBCChunker) (i : Nat),
    (findBoundaryAux c data 0).1 = some i → i < data.length := by
  induction data with
  | nil => intro c i h; simp [findBoundaryAux] at h
  | cons b rest ih =>
    intro c i h
    rw [findBoundaryAux_cons] at h
    by_cases h1 : c.min_chunk_size ≤ (c.state.ingest b).pos
    · by_cases h2 : c.is_popular_pair (c.state.ingest b).window = true
      · simp only [if_pos h1, if_pos h2] at h
        simp only [Option.some.injEq] at h
        simp [← h]
      · simp only [if_pos h1, if_neg h2] at h
        rw [findBoundaryAux_shift] at h
        cases hm : (findBoundaryAux { c with state := c.state.ingest b } rest 0).1 with
        | none => rw [hm] at h; simp at h
        | some j =>
          rw [hm] at h
          simp only [Option.map_some', Option.some.injEq] at h
          have := ih _ j hm
          simp only [List.length_cons]
          omega
    · simp only [if_neg h1] at h
      rw [findBoundaryAux_shift] at h
      cases hm : (findBoundaryAux { c with state := c.state.ingest b } rest 0).1 with
      | none => rw [hm] at h; simp at h
      | some j =>
        rw [hm] at h
        simp only [Option.map_some', Option.some.injEq] at h
        have := ih _ j hm
        simp only [List.length_cons]
        omega

theorem findBoundaryAux_append_none (xs : List Nat) :
    ∀ (ys : List Nat) (c c₁ : BFBCChunker) (i0 : Nat),
    findBoundaryAux c xs i0 = (none, c₁) →
    findBoundaryAux c (xs ++ ys) i0 = findBoundaryAux c₁ ys (i0 + xs.length) := by
  induction xs with
  | nil =>
    intro ys c c₁ i0 h
    simp only [findBoundaryAux, Prod.mk.injEq, true_and] at h
    subst h
    simp [findBoundaryAux]
  | cons b rest ih =>
    intro ys c c₁ i0 h
    rw [findBoundaryAux_cons] at h
    rw [List.cons_append, findBoundaryAux_cons]
    by_cases h1 : c.min_chunk_size ≤ (c.state.ingest b).pos
    · by_cases h2 : c.is_popular_pair (c.state.ingest b).window = true
      · simp [h1, h2] at h
      · simp only [if_pos h1, if_neg h2] at h ⊢
        rw [ih ys _ c₁ (i0 + 1) h]
        congr 1
        simp [List.length_cons]
        omega
    · simp only [if_neg h1] at h ⊢
      rw [ih ys _ c₁ (i0 + 1) h]
      congr 1
      simp [List.length_cons]
      omega

theorem findBoundaryAux_append_some (xs : List Nat) :
    ∀ (ys : List Nat) (c c₁ : BFBCChunker) (i0 i : Nat),
    findBoundaryAux c xs i0 = (some i, c₁) →
    findBoundaryAux c (xs ++ ys) i0 = (some i, c₁) := by
  induction xs with
  | nil => intro ys c c₁ i0 i h; simp [findBoundaryAux] at h
  | cons b rest ih =>
    intro ys c c₁ i0 i h
    rw [findBoundaryAux_cons] at h
    rw [List.cons_append, findBoundaryAux_cons]
    by_cases h1 : c.min_chunk_size ≤ (c.state.ingest b).pos
    · by_cases h2 : c.is_popular_pair (c.state.ingest b).window = true
      · simpa only [if_pos h1, if_pos h2] using h
      · simp only [if_pos h1, if_neg h2] at h ⊢
        exact ih ys _ c₁ (i0 + 1) i h
    · simp only [if_neg h1] at h ⊢
      exact ih ys _ c₁ (i0 + 1) i h

theorem findBoundaryAux_none_state (data : List Nat) :
    ∀ (c c₁ : BFBCChunker) (i0 : Nat),
    findBoundaryAux c data i0 = (none, c₁) →
    c₁ = { c with state := stateAfter c.state data } := by
  induction data with
  | nil =>
    intro c c₁ i0 h
    simp only [findBoundaryAux, Prod.mk.injEq, true_and] at h
    simp [stateAfter, ← h]
  | cons b rest ih =>
    intro c c₁ i0 h
    rw [findBoundaryAux_cons] at h
    rw [stateAfter_cons]
    by_cases h1 : c.min_chunk_size ≤ (c.state.ingest b).pos
    · by_cases h2 : c.is_popular_pair (c.state.ingest b).window = true
      · simp [h1, h2] at h
      · simp only [if_pos h1, if_neg h2] at h
        exact ih _ c₁ (i0 + 1) h
    · simp only [if_neg h1] at h
      exact ih _ c₁ (i0 + 1) h

theorem findBoundaryAux_some_state (data : List Nat) :
    ∀ (c c₁ : BFBCChunker) (k : Nat),
    findBoundaryAux c data 0 = (some k, c₁) →
    c₁ = { c with state := stateAfter c.state (data.take (k + 1)) } := by
  induction data with
  | nil => intro c c₁ k h; simp [findBoundaryAux] at h
  | cons b rest ih =>
    intro c c₁ k h
    rw [findBoundaryAux_cons] at h
    by_cases h1 : c.min_chunk_size ≤ (c.state.ingest b).pos
    · by_cases h2 : c.is_popular_pair (c.state.ingest b).window = true
      · simp only [if_pos h1, if_pos h2, Prod.mk.injEq, Option.some.injEq] at h
        obtain ⟨hk, hc⟩ := h
        subst hk
        simp [List.take, stateAfter, ← hc]
      · simp only [if_pos h1, if_neg h2] at h
        rw [findBoundaryAux_shift] at h
        cases hm : (findBoundaryAux { c with state := c.state.ingest b } rest 0).1 with
        | none => rw [hm] at h; simp at h
        | some j =>
          rw [hm] at h
          simp only [Option.map_some', Prod.mk.injEq, Option.some.injEq] at h
          obtain ⟨hk, hc⟩ := h
          have hfull : findBoundaryAux { c with state := c.state.ingest b } rest 0 =
              (some j, c₁) := by
            rw [← hm, ← hc]
          have hik := ih _ c₁ j hfull
          have hk2 : k = j + 1 := by omega
          subst hk2
          rw [hik]
          have htake : (b :: rest).take (j + 1 + 1) = b :: rest.take (j + 1) := rfl
          rw [htake, stateAfter_cons]
    · simp only [if_neg h1] at h
      rw [findBoundaryAux_shift] at h
      cases hm : (findBoundaryAux { c with state := c.state.ingest b } rest 0).1 with
      | none => rw [hm] at h; simp at h
      | some j =>
        rw [hm] at h
        simp only [Option.map_some', Prod.mk.injEq, Option.some.injEq] at h
        obtain ⟨hk, hc⟩ := h
        have hfull : findBoundaryAux { c with state := c.state.ingest b } rest 0 =
            (some j, c₁) := by
          rw [← hm, ← hc]
        have hik := ih _ c₁ j hfull
        have hk2 : k = j + 1 := by omega
        subst hk2
        rw [hik]
        have htake : (b :: rest).take (j + 1 + 1) = b :: rest.take (j + 1) := rfl
        rw [htake, stateAfter_cons]

theorem hitAt_cons_zero (c : BFBCChunker) (b : Nat) (rest : List Nat) :
    hitAt c (b :: rest) 0 ↔
      (c.min_chunk_size ≤ (c.state.ingest b).pos ∧
       c.is_popular_pair (c.state.ingest b).window = true) :=
  Iff.rfl

theorem hitAt_cons_succ (c : BFBCChunker) (b : Nat) (rest : List Nat) (j : Nat) :
    hitAt c (b :: rest) (j + 1) ↔ hitAt { c with state := c.state.ingest b } rest j :=
  Iff.rfl

theorem findBoundaryAux_some_iff (data : List Nat) : ∀ (c : BFBCChunker) (i : Nat),
    ((findBoundaryAux c data 0).1 = some i) ↔
      (i < data.length ∧ hitAt c data i ∧ ∀ j, j < i → ¬ hitAt c data j) := by
  induction data with
  | nil => intro c i; simp [findBoundaryAux]
  | cons b rest ih =>
    intro c i
    rw [findBoundaryAux_cons]
    rcases Decidable.em
        (c.min_chunk_size ≤ (c.state.ingest b).pos ∧
          c.is_popular_pair (c.state.ingest b).window = true) with hyes | hno
    · obtain ⟨h1, h2⟩ := hyes
      simp only [if_pos h1, if_pos h2]
      constructor
      · intro h
        simp only [Option.some.injEq] at h
        subst h
        refine ⟨by simp, (hitAt_cons_zero c b rest).mpr ⟨h1, h2⟩, ?_⟩
        intro j hj
        omega
      · rintro ⟨hlen, hhit, hmin⟩
        rcases Nat.eq_zero_or_pos i with hi | hi
        · subst hi; rfl
        · exact absurd ((hitAt_cons_zero c b rest).mpr ⟨h1, h2⟩) (hmin 0 hi)
    · have heq :
          (if c.min_chunk_size ≤ (c.state.ingest b).pos then
            if c.is_popular_pair (c.state.ingest b).window then
              ((some 0 : Option Nat), { c with state := c.state.ingest b })
            else findBoundaryAux { c with state := c.state.ingest b } rest (0 + 1)
          else findBoundaryAux { c with state := c.state.ingest b } rest (0 + 1))
          = findBoundaryAux { c with state := c.state.ingest b } rest (0 + 1) := by
        by_cases p : c.min_chunk_size ≤ (c.state.ingest b).pos
        · by_cases q : c.is_popular_pair (c.state.ingest b).window = true
          · exact absurd ⟨p, q⟩ hno
          · simp [p, q]
        · simp [p]
      rw [heq, findBoundaryAux_shift]
      have noHit0 : ¬ hitAt c (b :: rest) 0 := fun hh =>
        hno ((hitAt_cons_zero c b rest).mp hh)
      cases i with
      | zero =>
        constructor
        · intro h
          exfalso
          cases hm : (findBoundaryAux { c with state := c.state.ingest b } rest 0).1 with
          | none => rw [hm] at h; simp at h
          | some j => rw [hm] at h; simp only [Option.map_some', Option.some.injEq] at h; omega
        · rintro ⟨_, hhit, _⟩
          exact absurd hhit noHit0
      | succ n =>
        have hmap :
            ((Option.map (fun j => 0 + 1 + j)
              (findBoundaryAux { c with state := c.state.ingest b } rest 0).1,
              (findBoundaryAux { c with state := c.state.ingest b } rest 0).2).1
              = some (n + 1)) ↔
            ((findBoundaryAux { c with state := c.state.ingest b } rest 0).1 = some n) := by
          cases hm : (findBoundaryAux { c with state := c.state.ingest b } rest 0).1 with
          | none => simp
          | some j =>
            simp only [Option.map_some', Option.some.injEq]
            constructor
            · intro hh; omega
            · intro hh; simp only [Option.some.injEq] at hh; omega
        rw [hmap, ih _ n]
        constructor
        · rintro ⟨ha, hb, hc⟩
          refine ⟨by simp; omega, (hitAt_cons_succ c b rest n).mpr hb, ?_⟩
          intro j hj
          cases j with
          | zero => exact noHit0
          | succ j' =>
            intro hh
            exact hc j' (by omega) ((hitAt_cons_succ c b rest j').mp hh)
        · rintro ⟨ha, hb, hc⟩
          refine ⟨by simp at ha; omega, (hitAt_cons_succ c b rest n).mp hb, ?_⟩
          intro j hj hh
          exact hc (j + 1) (by omega) ((hitAt_cons_succ c b rest j).mpr hh)

/-! ### Bit-level lemmas about the bitmap and the window -/

theorem testBit_one_shiftLeft (n m : Nat) : (1 <<< n).testBit m = decide (n = m) := by
  rw [Nat.shiftLeft_eq, one_mul, Nat.testBit_two_pow]

theorem byte_testBit_high {b i : Nat} (hb : b < 256) (hi : 8 ≤ i) :
    b.testBit i = false := by
  apply Nat.testBit_lt_two_pow
  calc b < 256 := hb
    _ = 2 ^ 8 := by norm_num
    _ ≤ 2 ^ i := Nat.pow_le_pow_right (by norm_num) hi

theorem is_popular_pair_iff (c : BFBCChunker) (v : Nat) :
    c.is_popular_pair v = true ↔
      (c.frequent_byte_pairs (v / 8)).testBit (v % 8) = true := by
  unfold BFBCChunker.is_popular_pair byte_pair_to_bitfield_index
  simp only [bne_iff_ne, ne_eq]
  rw [Nat.shiftLeft_eq, one_mul, Nat.and_two_pow]
  cases h : (c.frequent_byte_pairs (v / 8)).testBit (v % 8) with
  | false => simp [h]
  | true => simp [h, Nat.pow_eq_zero]

theorem setPairBit_testBit (arr : Nat → Nat) (q : Nat × Nat) (cell j : Nat) :
    ((setPairBit arr q) cell).testBit j = true ↔
      ((arr cell).testBit j = true ∨
        (((q.1 <<< 8) ||| q.2) / 8 = cell ∧ ((q.1 <<< 8) ||| q.2) % 8 = j)) := by
  unfold setPairBit byte_pair_to_bitfield_index
  by_cases hc : cell = ((q.1 <<< 8) ||| q.2) / 8
  · subst hc
    rw [if_pos rfl]
    rw [Nat.testBit_or, testBit_one_shiftLeft]
    simp only [Bool.or_eq_true, decide_eq_true_eq]
    constructor
    · rintro (ha | hb)
      · exact Or.inl ha
      · exact Or.inr ⟨trivial, hb⟩
    · rintro (ha | ⟨_, hb⟩)
      · exact Or.inl ha
      · exact Or.inr hb
  · rw [if_neg hc]
    constructor
    · exact fun h => Or.inl h
    · rintro (ha | ⟨hcell, _⟩)
      · exact ha
      · exact absurd hcell.symm hc

theorem foldl_setPairBit_testBit (pairs : List (Nat × Nat)) :
    ∀ (arr : Nat → Nat) (cell j : Nat),
    ((pairs.foldl setPairBit arr) cell).testBit j = true ↔
      ((arr cell).testBit j = true ∨
        ∃ p, p ∈ pairs ∧
          ((p.1 <<< 8) ||| p.2) / 8 = cell ∧ ((p.1 <<< 8) ||| p.2) % 8 = j) := by
  induction pairs with
  | nil => intro arr cell j; simp
  | cons q rest ih =>
    intro arr cell j
    rw [List.foldl_cons, ih, setPairBit_testBit]
    constructor
    · rintro ((ha | hq) | ⟨p, hp, hidx⟩)
      · exact Or.inl ha
      · exact Or.inr ⟨q, List.mem_cons_self q rest, hq⟩
      · exact Or.inr ⟨p, List.mem_cons_of_mem q hp, hidx⟩
    · rintro (ha | ⟨p, hp, hidx⟩)
      · exact Or.inl (Or.inl ha)
      · rcases List.mem_cons.mp hp with heq | hp2
        · subst heq
          exact Or.inl (Or.inr hidx)
        · exact Or.inr ⟨p, hp2, hidx⟩

theorem buildBitmap_testBit (pairs : List (Nat × Nat)) (cell j : Nat) :
    ((buildBitmap pairs) cell).testBit j = true ↔
      ∃ p, p ∈ pairs ∧
        ((p.1 <<< 8) ||| p.2) / 8 = cell ∧ ((p.1 <<< 8) ||| p.2) % 8 = j := by
  unfold buildBitmap
  rw [foldl_setPairBit_testBit]
  simp [Nat.zero_testBit]

theorem pair_index_fst (a b : Nat) (hb : b < 256) : ((a <<< 8) ||| b) >>> 8 = a := by
  apply Nat.eq_of_testBit_eq
  intro i
  rw [Nat.testBit_shiftRight, Nat.testBit_or, Nat.testBit_shiftLeft]
  have hbi : b.testBit (8 + i) = false := byte_testBit_high hb (by omega)
  have h8 : 8 + i - 8 = i := by omega
  simp [hbi, h8]

theorem pair_index_snd (a b : Nat) (hb : b < 256) : ((a <<< 8) ||| b) % 256 = b := by
  apply Nat.eq_of_testBit_eq
  intro i
  have h256 : (256 : Nat) = 2 ^ 8 := by norm_num
  rw [h256, Nat.testBit_mod_two_pow, Nat.testBit_or, Nat.testBit_shiftLeft]
  by_cases hi : i < 8
  · have hle : ¬ (8 ≤ i) := by omega
    simp [hi, hle]
  · have hbi : b.testBit i = false := byte_testBit_high hb (by omega)
    simp [hi, hbi]

theorem pair_index_inj (a b a2 b2 : Nat) (hb : b < 256) (hb2 : b2 < 256)
    (h : (a <<< 8) ||| b = (a2 <<< 8) ||| b2) : a = a2 ∧ b = b2 := by
  constructor
  · rw [← pair_index_fst a b hb, ← pair_index_fst a2 b2 hb2, h]
  · rw [← pair_index_snd a b hb, ← pair_index_snd a2 b2 hb2, h]

theorem ingest_ingest_window (s : BFBCChunkerState) (b1 b2 : Nat)
    (h1 : b1 < 256) (h2 : b2 < 256) :
    ((s.ingest b1).ingest b2).window = (b1 <<< 8) ||| b2 := by
  apply Nat.eq_of_testBit_eq
  intro i
  simp only [BFBCChunkerState.ingest]
  have h65536 : (65536 : Nat) = 2 ^ 16 := by norm_num
  rw [h65536]
  simp only [Nat.testBit_or, Nat.testBit_mod_two_pow, Nat.testBit_shiftLeft]
  by_cases hi8 : i < 8
  · have hle : ¬ (8 ≤ i) := by omega
    simp [hi8, hle]
  · by_cases hi16 : i < 16
    · have hb2i : b2.testBit i = false := byte_testBit_high h2 (by omega)
      have hle : 8 ≤ i := by omega
      have hle2 : ¬ (8 ≤ i - 8) := by omega
      simp [hi16, hle, hle2, hb2i, (by omega : i - 8 < 16)]
    · have hb2i : b2.testBit i = false := byte_testBit_high h2 (by omega)
      have hb1i : b1.testBit (i - 8) = false := byte_testBit_high h1 (by omega)
      simp [hi16, hb2i, hb1i]

theorem find_boundary_def (c : BFBCChunker) (data : List Nat) :
    c.find_boundary data = findBoundaryAux c data 0 := rfl

theorem findBoundaryAux_config (data : List Nat) : ∀ (c : BFBCChunker) (i0 : Nat),
    (findBoundaryAux c data i0).2.frequent_byte_pairs = c.frequent_byte_pairs ∧
    (findBoundaryAux c data i0).2.min_chunk_size = c.min_chunk_size := by
  induction data with
  | nil => intro c i0; exact ⟨rfl, rfl⟩
  | cons b rest ih =>
    intro c i0
    rw [findBoundaryAux_cons]
    by_cases h1 : c.min_chunk_size ≤ (c.state.ingest b).pos
    · by_cases h2 : c.is_popular_pair (c.state.ingest b).window = true
      · simp [if_pos h1, if_pos h2]
      · simp only [if_pos h1, if_neg h2]
        exact ih _ (i0 + 1)
    · simp only [if_neg h1]
      exact ih _ (i0 + 1)

theorem findBoundaryAux_short (data : List Nat) : ∀ (c : BFBCChunker) (i0 : Nat),
    c.state.pos + data.length < c.min_chunk_size →
    findBoundaryAux c data i0 = (none, { c with state := stateAfter c.state data }) := by
  induction data with
  | nil =>
    intro c i0 _
    simp [findBoundaryAux, stateAfter]
  | cons b rest ih =>
    intro c i0 h
    rw [findBoundaryAux_cons]
    have h1 : ¬ (c.min_chunk_size ≤ (c.state.ingest b).pos) := by
      simp only [BFBCChunkerState.ingest, List.length_cons] at h ⊢
      omega
    rw [if_neg h1]
    rw [ih _ (i0 + 1) (by simp only [BFBCChunkerState.ingest, List.length_cons] at h ⊢; omega)]
    rw [stateAfter_cons]

/-! ### Driver lemmas -/

theorem driveBufF_congr : ∀ (fuel : Nat) (c : BFBCChunker) (data : List Nat) (base : Nat),
    data.length ≤ fuel →
    driveBufF fuel c data base = driveBufF data.length c data base := by
  intro fuel
  induction fuel using Nat.strong_induction_on with
  | _ fuel ih =>
    intro c data base hle
    match fuel, data with
    | 0, data =>
      have : data = [] := List.length_eq_zero.mp (by omega)
      subst this
      rfl
    | f + 1, [] => rfl
    | f + 1, b :: rest =>
      simp only [List.length_cons, driveBufF]
      cases hfb : c.find_boundary (b :: rest) with
      | mk o c' =>
        cases o with
        | some i =>
          dsimp only
          rw [ih f (by omega) c' ((b :: rest).drop (i + 1)) (base + i + 1)
            (by simp only [List.length_cons] at hle
                simp only [List.length_drop, List.length_cons]
                omega)]
          rw [ih rest.length (by simp only [List.length_cons] at hle; omega) c'
            ((b :: rest).drop (i + 1)) (base + i + 1)
            (by simp only [List.length_drop, List.length_cons]; omega)]
        | none => rfl

theorem driveBuf_eq (c : BFBCChunker) (data : List Nat) (base : Nat) :
    driveBuf c data base =
      match c.find_boundary data with
      | (some i, c') =>
        ((base + i) :: (driveBuf c' (data.drop (i + 1)) (base + i + 1)).1,
          (driveBuf c' (data.drop (i + 1)) (base + i + 1)).2)
      | (none, c') => ([], c', base + data.length) := by
  cases data with
  | nil => rfl
  | cons b rest =>
    unfold driveBuf
    simp only [List.length_cons, driveBufF]
    cases hfb : c.find_boundary (b :: rest) with
    | mk o c' =>
      cases o with
      | some i =>
        dsimp only
        rw [driveBufF_congr rest.length c' ((b :: rest).drop (i + 1)) (base + i + 1)
          (by simp only [List.length_drop, List.length_cons]; omega)]
      | none => rfl

theorem driveBuf_append : ∀ (n : Nat) (xs : List Nat), xs.length ≤ n →
    ∀ (ys : List Nat) (c : BFBCChunker) (base : Nat),
    driveBuf c (xs ++ ys) base =
      ((driveBuf c xs base).1 ++
        (driveBuf (driveBuf c xs base).2.1 ys (driveBuf c xs base).2.2).1,
        (driveBuf (driveBuf c xs base).2.1 ys (driveBuf c xs base).2.2).2) := by
  intro n
  induction n using Nat.strong_induction_on with
  | _ n ih =>
    intro xs hxs ys c base
    cases hfb : c.find_boundary xs with
    | mk o c₁ =>
      cases o with
      | none =>
        have hxs_eval : driveBuf c xs base = ([], c₁, base + xs.length) := by
          rw [driveBuf_eq, hfb]
        rw [hxs_eval]
        simp only [List.nil_append]
        have happ := findBoundaryAux_append_none xs ys c c₁ 0 hfb
        rw [driveBuf_eq c (xs ++ ys) base,
          show c.find_boundary (xs ++ ys) = findBoundaryAux c₁ ys (0 + xs.length) from happ,
          findBoundaryAux_shift]
        rw [driveBuf_eq c₁ ys (base + xs.length), find_boundary_def c₁ ys]
        cases hfb2 : findBoundaryAux c₁ ys 0 with
        | mk o2 c₂ =>
          cases o2 with
          | none =>
            simp only [Option.map_none']
            simp only [List.length_append]
            rw [Nat.add_assoc]
          | some j =>
            simp only [Option.map_some']
            have hdrop : (xs ++ ys).drop (0 + xs.length + j + 1) = ys.drop (j + 1) := by
              have harith : 0 + xs.length + j + 1 = xs.length + (j + 1) := by omega
              rw [harith, List.drop_append]
            rw [hdrop]
            have harith1 : base + (0 + xs.length + j) = base + xs.length + j := by omega
            rw [harith1]
      | some i =>
        have hlt : i < xs.length := findBoundaryAux_lt xs c i (by rw [← find_boundary_def, hfb])
        have hxs_eval : driveBuf c xs base =
            ((base + i) :: (driveBuf c₁ (xs.drop (i + 1)) (base + i + 1)).1,
              (driveBuf c₁ (xs.drop (i + 1)) (base + i + 1)).2) := by
          rw [driveBuf_eq, hfb]
        have hfull : c.find_boundary (xs ++ ys) = (some i, c₁) :=
          findBoundaryAux_append_some xs ys c c₁ 0 i hfb
        rw [driveBuf_eq c (xs ++ ys) base, hfull]
        dsimp only
        have hdrop : (xs ++ ys).drop (i + 1) = xs.drop (i + 1) ++ ys :=
          List.drop_append_of_le_length (by omega)
        rw [hdrop]
        rw [ih (n - 1) (by omega) (xs.drop (i + 1))
          (by simp only [List.length_drop]; omega) ys c₁ (base + i + 1)]
        rw [hxs_eval]
        dsimp only
        rw [List.cons_append]

theorem driveList_flatten : ∀ (bufs : List (List Nat)) (c : BFBCChunker) (base : Nat),
    driveList c bufs base = driveBuf c bufs.flatten base := by
  intro bufs
  induction bufs with
  | nil => intro c base; rfl
  | cons d rest ih =>
    intro c base
    show driveList c (d :: rest) base = driveBuf c (d :: rest).flatten base
    rw [List.flatten_cons]
    rw [driveBuf_append d.length d (le_refl d.length) rest.flatten c base]
    simp only [driveList]
    rw [ih]

theorem is_popular_pair_mk (f : Nat → Nat) (m : Nat) (s : BFBCChunkerState) (v : Nat) :
    (BFBCChunker.mk f m s).is_popular_pair v = (f (v / 8) &&& (1 <<< (v % 8)) != 0) :=
  rfl

theorem find_boundary_filler_pair (bm : Nat → Nat) (m : Nat) (hm : 2 ≤ m)
    (filler : List Nat) (hf : filler.length = m - 2) (x y : Nat) :
    ((BFBCChunker.mk bm m { pos := 0, window := 0 }).find_boundary
        (filler ++ [x, y])).1 =
      if bm ((((stateAfter { pos := 0, window := 0 } filler).ingest x).ingest y).window / 8)
          &&& (1 <<<
            ((((stateAfter { pos := 0, window := 0 } filler).ingest x).ingest y).window % 8))
          != 0
      then some (m - 1) else none := by
  rw [find_boundary_def]
  have hshort : findBoundaryAux (BFBCChunker.mk bm m { pos := 0, window := 0 }) filler 0 =
      (none, { BFBCChunker.mk bm m { pos := 0, window := 0 } with
        state := stateAfter { pos := 0, window := 0 } filler }) := by
    apply findBoundaryAux_short
    dsimp
    omega
  rw [findBoundaryAux_append_none filler [x, y] _ _ 0 hshort]
  rw [findBoundaryAux_cons]
  rw [if_neg (show ¬ _ from by
    dsimp [BFBCChunkerState.ingest]
    rw [stateAfter_pos]
    dsimp
    omega)]
  rw [findBoundaryAux_cons]
  rw [if_pos (show _ from by
    dsimp [BFBCChunkerState.ingest]
    rw [stateAfter_pos]
    dsimp
    omega)]
  dsimp only
  simp only [is_popular_pair_mk]
  by_cases hp :
      (bm ((((stateAfter { pos := 0, window := 0 } filler).ingest x).ingest y).window / 8)
        &&& (1 <<<
          ((((stateAfter { pos := 0, window := 0 } filler).ingest x).ingest y).window % 8))
        != 0) = true
  · rw [if_pos hp, if_pos hp]
    dsimp only
    simp only [Option.some.injEq]
    omega
  · rw [if_neg hp, if_neg hp]
    rfl

/-! ### Claim theorems -/

/-- C1: `find_boundary` scans the buffer left to right, ingesting one byte at
a time, and returns `some i` exactly when `i` is the first 0-based index at
which the cumulative `pos` since the last reset has reached `min_chunk_size`
and the current two-byte window is in the frequent-pair bitmap (so `i` points
at the second byte of the matching pair); in particular, a detector built
from the single pair (0x41, 0x42) with `min_chunk_size = 2` reports boundary
1 on [0x41, 0x42] and no boundary on [0x41, 0x43]. -/
theorem C1_find_boundary_first_hit :
    (∀ (c : BFBCChunker) (data : List Nat) (i : Nat),
      ((c.find_boundary data).1 = some i ↔
        (i < data.length ∧ hitAt c data i ∧ ∀ j, j < i → ¬ hitAt c data j)))
    ∧ (BFBCChunker.new [(0x41, 0x42)] 2).map
        (fun c => (c.find_boundary [0x41, 0x42]).1) = some (some 1)
    ∧ (BFBCChunker.new [(0x41, 0x42)] 2).map
        (fun c => (c.find_boundary [0x41, 0x43]).1) = some none := by
  refine ⟨?_, by decide, by decide⟩
  intro c data i
  rw [find_boundary_def]
  exact findBoundaryAux_some_iff data c i

/-- Witness for C1: the first-hit characterization applied to the concrete
detector over the pair (0x41, 0x42) and the buffer [0x41, 0x42]. -/
theorem C1_find_boundary_first_hit_witness :
    (exampleChunker.find_boundary [0x41, 0x42]).1 = some 1 :=
  (C1_find_boundary_first_hit.1 exampleChunker [0x41, 0x42] 1).mpr
    (by refine ⟨by decide, by decide, ?_⟩
        intro j hj
        interval_cases j
        decide)

/-- C2: feeding a byte stream split into any list of sub-buffers fed
sequentially (state carried across calls, the unconsumed remainder re-fed
after each reported boundary) yields exactly the same absolute boundary
positions, final detector and final stream position as feeding the
concatenated stream in a single run. -/
theorem C2_split_invariance (c : BFBCChunker) (bufs : List (List Nat)) (base : Nat) :
    driveList c bufs base = driveBuf c bufs.flatten base :=
  driveList_flatten bufs c base

/-- C3: whenever `find_boundary` returns `some i`, the `pos` counter at that
moment (bytes ingested since the last reset, including the matching byte) is
at least `min_chunk_size`, and equals the prior `pos` plus `i + 1`; hence no
boundary is ever reported at a cumulative position below the minimum. -/
theorem C3_min_size_enforced (c : BFBCChunker) (data : List Nat) (i : Nat)
    (h : (c.find_boundary data).1 = some i) :
    c.min_chunk_size ≤ ((c.find_boundary data).2).state.pos ∧
    ((c.find_boundary data).2).state.pos = c.state.pos + (i + 1) := by
  have h0 : (findBoundaryAux c data 0).1 = some i := by rw [← find_boundary_def]; exact h
  obtain ⟨hlen, ⟨hpos, _⟩, _⟩ := (findBoundaryAux_some_iff data c i).mp h0
  have hpair : findBoundaryAux c data 0 = (some i, (c.find_boundary data).2) := by
    rw [← find_boundary_def, ← h]
  have hstate := findBoundaryAux_some_state data c _ i hpair
  rw [hstate]
  dsimp only
  constructor
  · exact hpos
  · rw [stateAfter_pos]
    have : (data.take (i + 1)).length = i + 1 := by
      rw [List.length_take]
      omega
    omega

/-- Witness for C3 on the concrete detector: a reported boundary at index 1
comes with a final `pos` of 2, at least the minimum chunk size. -/
theorem C3_min_size_enforced_witness :
    2 ≤ ((exampleChunker.find_boundary [0x41, 0x42]).2).state.pos ∧
    ((exampleChunker.find_boundary [0x41, 0x42]).2).state.pos = 0 + (1 + 1) :=
  C3_min_size_enforced exampleChunker [0x41, 0x42] 1 (by decide)

/-- C4: the constructed bitmap has the bit at global index `(b1 << 8) | b2`
(cell `p / 8`, bit `p % 8`) set if and only if the pair `(b1, b2)` occurs in
the supplied list; construction is a pure union, so any two input lists with
the same members (permutations, duplicates) build identical bitmaps — in
particular [(0x00, 0x01), (0x00, 0x01)] and [(0x00, 0x01)] build the same
bitmap. -/
theorem C4_bitmap_characterization :
    (∀ (pairs : List (Nat × Nat)), (∀ p ∈ pairs, p.1 < 256 ∧ p.2 < 256) →
      ∀ (b1 b2 : Nat), b1 < 256 → b2 < 256 →
        (((buildBitmap pairs) (((b1 <<< 8) ||| b2) / 8)).testBit
            (((b1 <<< 8) ||| b2) % 8) = true ↔ (b1, b2) ∈ pairs))
    ∧ (∀ (pairs1 pairs2 : List (Nat × Nat)),
        (∀ q, q ∈ pairs1 ↔ q ∈ pairs2) → buildBitmap pairs1 = buildBitmap pairs2)
    ∧ buildBitmap [(0x00, 0x01), (0x00, 0x01)] = buildBitmap [(0x00, 0x01)] := by
  have hunion : ∀ (pairs1 pairs2 : List (Nat × Nat)),
      (∀ q, q ∈ pairs1 ↔ q ∈ pairs2) → buildBitmap pairs1 = buildBitmap pairs2 := by
    intro pairs1 pairs2 hiff
    funext cell
    apply Nat.eq_of_testBit_eq
    intro j
    have h1 := buildBitmap_testBit pairs1 cell j
    have h2 := buildBitmap_testBit pairs2 cell j
    by_cases hb : ((buildBitmap pairs1) cell).testBit j = true
    · obtain ⟨p, hp, hidx⟩ := h1.mp hb
      have hb2 : ((buildBitmap pairs2) cell).testBit j = true :=
        h2.mpr ⟨p, (hiff p).mp hp, hidx⟩
      rw [hb, hb2]
    · have hb2 : ¬ ((buildBitmap pairs2) cell).testBit j = true := by
        intro hh
        obtain ⟨p, hp, hidx⟩ := h2.mp hh
        exact hb (h1.mpr ⟨p, (hiff p).mpr hp, hidx⟩)
      rw [Bool.not_eq_true] at hb hb2
      rw [hb, hb2]
  refine ⟨?_, hunion, hunion _ _ (by intro q; simp)⟩
  intro pairs hval b1 b2 hb1 hb2
  rw [buildBitmap_testBit]
  constructor
  · rintro ⟨p, hp, hdiv, hmod⟩
    have hq : (p.1 <<< 8) ||| p.2 = (b1 <<< 8) ||| b2 := by omega
    obtain ⟨hv1, hv2⟩ := hval p hp
    obtain ⟨e1, e2⟩ := pair_index_inj p.1 p.2 b1 b2 hv2 hb2 hq
    have hpp : p = (b1, b2) := Prod.ext e1 e2
    rwa [← hpp]
  · intro hmem
    exact ⟨(b1, b2), hmem, rfl, rfl⟩

/-- Witness for C4: the bit of the registered pair (0x41, 0x42) is set in the
bitmap built from the singleton list. -/
theorem C4_bitmap_characterization_witness :
    ((buildBitmap [(0x41, 0x42)]) (((0x41 <<< 8) ||| 0x42) / 8)).testBit
      (((0x41 <<< 8) ||| 0x42) % 8) = true :=
  (C4_bitmap_characterization.1 [(0x41, 0x42)] (by decide) 0x41 0x42 (by decide)
    (by decide)).mpr (by decide)

/-- C5: `reset` zeroes the streaming state (`pos = 0`, `window = 0`), the
state a freshly constructed detector starts in; a detector whose
configuration matches a freshly constructed one becomes, after `reset`,
exactly that fresh detector, so feeding any buffers afterwards produces
identical results — no residual window state survives a reset. -/
theorem C5_reset_semantics :
    (∀ c : BFBCChunker, (c.reset).state = { pos := 0, window := 0 })
    ∧ (∀ (pairs : List (Nat × Nat)) (m : Nat) (c c₀ : BFBCChunker),
        BFBCChunker.new pairs m = some c₀ →
        c.frequent_byte_pairs = c₀.frequent_byte_pairs →
        c.min_chunk_size = c₀.min_chunk_size →
        c.reset = c₀) := by
  constructor
  · intro c; rfl
  · intro pairs m c c₀ hnew hfb hmin
    unfold BFBCChunker.new at hnew
    by_cases hm : 2 ≤ m
    · rw [if_pos hm] at hnew
      simp only [Option.some.injEq] at hnew
      subst hnew
      cases c with
      | mk fb mcs st =>
        simp only at hfb hmin
        unfold BFBCChunker.reset BFBCChunkerState.reset
        simp_all
    · rw [if_neg hm] at hnew
      exact absurd hnew (by simp)

/-- Witness for C5: resetting the dirty concrete detector yields exactly the
freshly constructed one. -/
theorem C5_reset_semantics_witness :
    exampleChunkerDirty.reset = exampleChunker :=
  C5_reset_semantics.2 [(0x41, 0x42)] 2 exampleChunkerDirty exampleChunker rfl rfl rfl

/-- C6: for every byte pair (b1, b2) registered as the sole frequent pair in
a detector with minimum chunk size m ≥ 2, feeding m-2 filler bytes followed
by b1 then b2 reports the boundary m-1 (the index of b2), while feeding m-2
filler bytes followed by any other single pair (c1, c2) reports no
boundary. -/
theorem C6_exhaustive_pair_space (b1 b2 : Nat) (h1 : b1 < 256) (h2 : b2 < 256)
    (m : Nat) (hm : 2 ≤ m) (c : BFBCChunker)
    (hc : BFBCChunker.new [(b1, b2)] m = some c) (filler : List Nat)
    (hf : filler.length = m - 2) :
    (c.find_boundary (filler ++ [b1, b2])).1 = some (m - 1) ∧
    (∀ c1 c2 : Nat, c1 < 256 → c2 < 256 → (c1, c2) ≠ (b1, b2) →
      (c.find_boundary (filler ++ [c1, c2])).1 = none) := by
  unfold BFBCChunker.new at hc
  rw [if_pos hm] at hc
  simp only [Option.some.injEq] at hc
  subst hc
  constructor
  · rw [find_boundary_filler_pair (buildBitmap [(b1, b2)]) m hm filler hf b1 b2]
    rw [ingest_ingest_window _ b1 b2 h1 h2]
    have hpop : (buildBitmap [(b1, b2)] (((b1 <<< 8) ||| b2) / 8) &&&
        (1 <<< (((b1 <<< 8) ||| b2) % 8)) != 0) = true := by
      rw [← is_popular_pair_mk (buildBitmap [(b1, b2)]) m { pos := 0, window := 0 }]
      rw [is_popular_pair_iff]
      exact (buildBitmap_testBit [(b1, b2)] _ _).mpr
        ⟨(b1, b2), List.mem_singleton_self _, rfl, rfl⟩
    rw [if_pos hpop]
  · intro c1 c2 hc1 hc2 hne
    rw [find_boundary_filler_pair (buildBitmap [(b1, b2)]) m hm filler hf c1 c2]
    rw [ingest_ingest_window _ c1 c2 hc1 hc2]
    have hpop : ¬ ((buildBitmap [(b1, b2)] (((c1 <<< 8) ||| c2) / 8) &&&
        (1 <<< (((c1 <<< 8) ||| c2) % 8)) != 0) = true) := by
      rw [← is_popular_pair_mk (buildBitmap [(b1, b2)]) m { pos := 0, window := 0 }]
      rw [is_popular_pair_iff]
      intro hh
      obtain ⟨p, hp, hdiv, hmod⟩ := (buildBitmap_testBit [(b1, b2)] _ _).mp hh
      rw [List.mem_singleton] at hp
      subst hp
      dsimp only at hdiv hmod
      have hq : (b1 <<< 8) ||| b2 = (c1 <<< 8) ||| c2 := by omega
      obtain ⟨e1, e2⟩ := pair_index_inj b1 b2 c1 c2 h2 hc2 hq
      exact hne (Prod.ext e1.symm e2.symm)
    rw [if_neg hpop]

/-- Witness for C6 with the pair (0x41, 0x42), minimum chunk size 3 and one
filler byte: the matching pair fires at index 2, a different pair does not
fire. -/
theorem C6_exhaustive_pair_space_witness :
    ((BFBCChunker.mk (buildBitmap [(0x41, 0x42)]) 3
        { pos := 0, window := 0 }).find_boundary [0x00, 0x41, 0x42]).1 = some 2 ∧
    ((BFBCChunker.mk (buildBitmap [(0x41, 0x42)]) 3
        { pos := 0, window := 0 }).find_boundary [0x00, 0x41, 0x43]).1 = none := by
  have hc : BFBCChunker.new [(0x41, 0x42)] 3 =
      some (BFBCChunker.mk (buildBitmap [(0x41, 0x42)]) 3 { pos := 0, window := 0 }) :=
    rfl
  have h := C6_exhaustive_pair_space 0x41 0x42 (by decide) (by decide) 3 (by decide) _
    hc [0x00] (by decide)
  exact ⟨h.1, h.2 0x41 0x43 (by decide) (by decide) (by decide)⟩

/-- C7: if `find_boundary` returns `none`, the streaming state has advanced by
exactly the full buffer length (the new state is the fold of `ingest` over
the buffer, carrying the rolling window); if it returns `some i`, the state
has advanced by exactly i+1 bytes and is not reset by the call; feeding an
empty buffer returns `none` and leaves the detector completely unchanged. -/
theorem C7_state_advancement (c : BFBCChunker) (data : List Nat) :
    ((c.find_boundary data).1 = none →
      (c.find_boundary data).2 = { c with state := stateAfter c.state data } ∧
      ((c.find_boundary data).2).state.pos = c.state.pos + data.length)
    ∧ (∀ i, (c.find_boundary data).1 = some i →
      (c.find_boundary data).2 =
        { c with state := stateAfter c.state (data.take (i + 1)) } ∧
      ((c.find_boundary data).2).state.pos = c.state.pos + (i + 1))
    ∧ c.find_boundary [] = (none, c) := by
  refine ⟨?_, ?_, rfl⟩
  · intro h
    have hpair : findBoundaryAux c data 0 = (none, (c.find_boundary data).2) := by
      rw [← find_boundary_def, ← h]
    have hstate := findBoundaryAux_none_state data c _ 0 hpair
    rw [hstate]
    dsimp only
    rw [stateAfter_pos]
    exact ⟨rfl, rfl⟩
  · intro i h
    have h0 : (findBoundaryAux c data 0).1 = some i := by rw [← find_boundary_def]; exact h
    have hlt := findBoundaryAux_lt data c i h0
    have hpair : findBoundaryAux c data 0 = (some i, (c.find_boundary data).2) := by
      rw [← find_boundary_def, ← h]
    have hstate := findBoundaryAux_some_state data c _ i hpair
    rw [hstate]
    dsimp only
    rw [stateAfter_pos]
    refine ⟨rfl, ?_⟩
    have : (data.take (i + 1)).length = i + 1 := by
      rw [List.length_take]
      omega
    omega

/-- Witness for C7: feeding [0x41] to the concrete detector finds no boundary
and advances `pos` by exactly one. -/
theorem C7_state_advancement_witness :
    (exampleChunker.find_boundary [0x41]).2 =
      { exampleChunker with state := stateAfter exampleChunker.state [0x41] } ∧
    ((exampleChunker.find_boundary [0x41]).2).state.pos =
      exampleChunker.state.pos + 1 :=
  (C7_state_advancement exampleChunker [0x41]).1 (by decide)

/-- C8: construction fails via the assertion exactly when `min_chunk_size` is
below 2 (modelled as `new` returning `none`), and succeeds, returning a
detector, whenever `min_chunk_size ≥ 2`. -/
theorem C8_construction_assertion (pairs : List (Nat × Nat)) (m : Nat) :
    (BFBCChunker.new pairs m = none ↔ m < 2) ∧
    (2 ≤ m → (BFBCChunker.new pairs m).isSome = true) := by
  unfold BFBCChunker.new
  by_cases hm : 2 ≤ m
  · rw [if_pos hm]
    refine ⟨⟨fun h => absurd h (by simp), fun h => absurd hm (by omega)⟩, fun _ => rfl⟩
  · rw [if_neg hm]
    exact ⟨⟨fun _ => by omega, fun _ => rfl⟩, fun h => absurd h hm⟩

/-- Witness for C8: `min_chunk_size = 1` fails the assertion while
`min_chunk_size = 5` constructs a detector. -/
theorem C8_construction_assertion_witness :
    BFBCChunker.new [] 1 = none ∧ (BFBCChunker.new [] 5).isSome = true :=
  ⟨(C8_construction_assertion [] 1).1.mpr (by omega),
    (C8_construction_assertion [] 5).2 (by omega)⟩

/-- C9: the frequent-pair bitmap and the configured minimum chunk size are
never modified after construction: any sequence of feed and reset operations
leaves both configuration fields exactly as built, and each individual
`find_boundary` or `reset` call mutates only the streaming state. -/
theorem C9_config_immutable (c : BFBCChunker) (ops : List ChunkerOp) :
    ((ops.foldl runOp c).frequent_byte_pairs = c.frequent_byte_pairs ∧
      (ops.foldl runOp c).min_chunk_size = c.min_chunk_size)
    ∧ (∀ data : List Nat,
        (c.find_boundary data).2.frequent_byte_pairs = c.frequent_byte_pairs ∧
        (c.find_boundary data).2.min_chunk_size = c.min_chunk_size)
    ∧ ((c.reset).frequent_byte_pairs = c.frequent_byte_pairs ∧
        (c.reset).min_chunk_size = c.min_chunk_size) := by
  refine ⟨?_, fun data => findBoundaryAux_config data c 0, ⟨rfl, rfl⟩⟩
  induction ops generalizing c with
  | nil => exact ⟨rfl, rfl⟩
  | cons op rest ih =>
    rw [List.foldl_cons]
    have hop : (runOp c op).frequent_byte_pairs = c.frequent_byte_pairs ∧
        (runOp c op).min_chunk_size = c.min_chunk_size := by
      cases op with
      | feed d => exact findBoundaryAux_config d c 0
      | reset => exact ⟨rfl, rfl⟩
    have hrest := ih (runOp c op)
    exact ⟨hrest.1.trans hop.1, hrest.2.trans hop.2⟩

/-- C10: for every 16-bit pair value the computed bitmap address is in
bounds — the cell index is below 8192 and the bit index below 8 — and
`ingest` keeps the window a 16-bit value, so every bitmap access of the
membership test stays inside the 8192-byte array. -/
theorem C10_index_bounds :
    (∀ val : Nat, val < 65536 →
      (byte_pair_to_bitfield_index val).1 < 8192 ∧
      (byte_pair_to_bitfield_index val).2 < 8)
    ∧ (∀ (s : BFBCChunkerState) (b : Nat), b < 256 → (s.ingest b).window < 65536) := by
  constructor
  · intro val h
    unfold byte_pair_to_bitfield_index
    exact ⟨by omega, by omega⟩
  · intro s b hb
    unfold BFBCChunkerState.ingest
    dsimp only
    have hmod : (s.window <<< 8) % 65536 < 65536 := Nat.mod_lt _ (by norm_num)
    have hb65 : b < 65536 := by omega
    have h655 : (65536 : Nat) = 2 ^ 16 := by norm_num
    rw [h655] at hmod hb65 ⊢
    exact Nat.or_lt_two_pow hmod hb65

/-- Witness for C10: the address of the largest 16-bit value 0xFFFF is in
bounds, and a concrete ingest keeps the window below 2^16. -/
theorem C10_index_bounds_witness :
    ((byte_pair_to_bitfield_index 0xFFFF).1 < 8192 ∧
      (byte_pair_to_bitfield_index 0xFFFF).2 < 8) ∧
    (({ pos := 7, window := 0xABCD } : BFBCChunkerState).ingest 0x42).window < 65536 :=
  ⟨C10_index_bounds.1 0xFFFF (by decide),
    C10_index_bounds.2 { pos := 7, window := 0xABCD } 0x42 (by decide)⟩
